import Mathlib

/-!
Verification of the Part-6 constant-relation matcher of
`src/symbolic_discovery.py` ("Conceptual Search for an Unknown Connection").

The matcher takes a table of named numeric constants containing a
distinguished entry named `"TARGET"`, enumerates candidate expressions
(unary square roots, and binary Add/Mul/Pow applications over
combinations-with-replacement of non-target entries), evaluates each one
numerically, tracks the best match so far under a strict `<` comparison
starting from infinity, and reports every candidate whose absolute error
against the target value is below the tolerance `1e-3`.

Numeric values are modelled as real numbers: the script evaluates
candidates with SymPy's arbitrary-precision `evalf` over real-valued
literals, and every claim checked here is robust to the rounding of any
reasonable numeric evaluation.  Exotic inputs on which SymPy would leave
the reals (a negative base under `sqrt` or a fractional power) are outside
every table exercised by the spec and claims.
-/

namespace SymbolicDiscovery

/-- A constant table: names mapped to numeric values, in insertion order
(Python dicts preserve insertion order).  Mirrors `constants_db`. -/
abbrev Table : Type := List (String × ℝ)

/-- The fixed operator set, in the declared order of
`operations = [sp.Add, sp.Mul, sp.Pow, sp.sqrt]`. -/
inductive Op : Type where
  | add : Op
  | mul : Op
  | pow : Op
  | sqrt : Op
deriving DecidableEq, Repr

/-- The declared operator list `operations = [sp.Add, sp.Mul, sp.Pow, sp.sqrt]`. -/
def operations : List Op := [Op.add, Op.mul, Op.pow, Op.sqrt]

/-- A candidate expression: an operator applied to one constant name
(unary) or two constant names (binary, ordered as drawn by
`itertools.combinations_with_replacement`). -/
inductive Candidate : Type where
  | unary (op : Op) (n : String) : Candidate
  | binary (op : Op) (a b : String) : Candidate
deriving DecidableEq, Repr

/-- The operand names a candidate references. -/
def Candidate.operandNames : Candidate → List String
  | .unary _ n => [n]
  | .binary _ a b => [a, b]

/-- `itertools.combinations_with_replacement(l, 2)`: all pairs `(l[i], l[j])`
with `i ≤ j`, in lexicographic index order. -/
def cwr2 {α : Type} : List α → List (α × α)
  | [] => []
  | x :: xs => (x :: xs).map (fun y => (x, y)) ++ cwr2 xs

/-- The unary part of one iteration of the operator loop: for each table
entry, skip the entry named `TARGET` (`if c_name == 'TARGET': continue`);
the expression is built only when the operator is `sqrt`
(`op(sp.Symbol(c_name)) if op == sp.sqrt else None`). -/
def unaryCands (op : Op) (tbl : Table) : List Candidate :=
  tbl.filterMap (fun p =>
    if p.1 = "TARGET" then none
    else if op = Op.sqrt then some (Candidate.unary op p.1) else none)

/-- The binary part of one iteration of the operator loop: guarded by
`if op in [sp.Add, sp.Mul, sp.Pow]`, it draws unordered-with-replacement
pairs of table entries and skips any pair containing the target
(`if 'TARGET' in [c1_name, c2_name]: continue`). -/
def binaryCands (op : Op) (tbl : Table) : List Candidate :=
  if op ∈ [Op.add, Op.mul, Op.pow] then
    (cwr2 tbl).filterMap (fun q =>
      if "TARGET" ∈ [q.1.1, q.2.1] then none
      else some (Candidate.binary op q.1.1 q.2.1))
  else []

/-- All candidates, in the exact enumeration order of the discovery loop:
operators in declared order, and for each operator first the unary loop
and then the binary loop. -/
def candidates (tbl : Table) : List Candidate :=
  operations.flatMap (fun op => unaryCands op tbl ++ binaryCands op tbl)

/-- Dictionary lookup `constants_db[name]`.  The script only ever looks up
keys present in the table (a missing `'TARGET'` key would raise `KeyError`
before any comparison happens); the default `0` is never exercised by any
table considered here. -/
def lookupD (tbl : Table) (n : String) : ℝ :=
  ((tbl.find? (fun p => p.1 == n)).map Prod.snd).getD 0

/-- Numeric evaluation of a candidate, `symbolic_expr.evalf(subs=...)`:
substitute the operands' current values and apply the operator.  The
unary constructor is only ever built with `sqrt` and the binary one only
with `add`/`mul`/`pow`; the remaining branches are unreachable in any
enumerated candidate list. -/
noncomputable def evalCand (tbl : Table) : Candidate → ℝ
  | .unary op n =>
    match op with
    | Op.sqrt => Real.sqrt (lookupD tbl n)
    | _ => 0
  | .binary op a b =>
    match op with
    | Op.add => lookupD tbl a + lookupD tbl b
    | Op.mul => lookupD tbl a * lookupD tbl b
    | Op.pow => lookupD tbl a ^ lookupD tbl b
    | Op.sqrt => 0

/-- `tolerance = 1e-3`: how close a match needs to be to count as a
"discovery". -/
def tolerance : ℝ := 1e-3

/-- `error = abs(numeric_val - constants_db['TARGET'])`. -/
noncomputable def errOf (tbl : Table) (c : Candidate) : ℝ :=
  |evalCand tbl c - lookupD tbl "TARGET"|

/-- One strict-`<` update of the best-match record.  `none` models the
initial `{'expr': None, 'error': float('inf')}`: every (finite, real)
error is below infinity, so the first candidate always replaces it. -/
noncomputable def bestStep {α : Type} (f : α → ℝ) (b : Option (α × ℝ)) (c : α) :
    Option (α × ℝ) :=
  match b with
  | none => some (c, f c)
  | some (c0, e0) => if f c < e0 then some (c, f c) else some (c0, e0)

/-- The mutable state of the discovery loop: the best-match record and the
list of candidates reported as potential discoveries, in report order. -/
structure ScanState where
  best : Option (Candidate × ℝ)
  reports : List Candidate

/-- One iteration of the loop body for candidate `c`: report it when
`error < tolerance`, then update the best match when `error <
best_match['error']`. -/
noncomputable def stepScan (tbl : Table) (s : ScanState) (c : Candidate) : ScanState :=
  { best := bestStep (errOf tbl) s.best c,
    reports := if errOf tbl c < tolerance then s.reports ++ [c] else s.reports }

/-- The full discovery loop over all candidates, starting from
`best_match = {'expr': None, 'error': float('inf')}` and no reports. -/
noncomputable def scan (tbl : Table) : ScanState :=
  (candidates tbl).foldl (stepScan tbl) ⟨none, []⟩

/-- The final result block (lines 265–268): it prints the best expression,
re-evaluates it restricted to the constants it references, and prints the
error.  When no candidate was ever enumerated, `best_match['expr']` is
still `None` and `best_match['expr'].evalf(...)` raises `AttributeError`;
that failure is modelled as `none`. -/
noncomputable def finalReport (tbl : Table) : Option (Candidate × ℝ × ℝ) :=
  match (scan tbl).best with
  | none => none
  | some (c, e) => some (c, evalCand tbl c, e)

/-- The Part-6 knowledge base `constants_db`. -/
def constants_db : Table :=
  [("C1", 1.618), ("C2", 2.718), ("C3", 3.1415), ("TARGET", 9.869)]

/-- The spec's second scenario: `target = 4.0, constants {A: 2.0}`. -/
def scenario_db : Table := [("A", 2.0), ("TARGET", 4.0)]

/-- A table whose non-target entry set is empty. -/
def target_only_db : Table := [("TARGET", 9.869)]

/-! ### Generic lemmas about the strict-`<` best-match fold -/

/-- A best-match record whose error is a lower bound for every remaining
candidate survives the rest of the scan unchanged (the update is strict). -/
theorem foldBest_stable {α : Type} (f : α → ℝ) (c0 : α) (e0 : ℝ) (l : List α)
    (h : ∀ x ∈ l, e0 ≤ f x) :
    l.foldl (bestStep f) (some (c0, e0)) = some (c0, e0) := by
  induction l with
  | nil => rfl
  | cons x xs ih =>
    have hx : ¬ f x < e0 := not_lt.mpr (h x (List.mem_cons_self x xs))
    simp only [List.foldl_cons, bestStep, hx, if_false]
    exact ih (fun y hy => h y (List.mem_cons_of_mem x hy))

/-- Scanning a list whose candidates all have error strictly above `b`
keeps the best-match record empty or strictly above `b`. -/
theorem foldBest_gt {α : Type} (f : α → ℝ) (b : ℝ) (l : List α)
    (h : ∀ x ∈ l, b < f x) :
    ∀ acc : Option (α × ℝ), (acc = none ∨ ∃ p : α × ℝ, acc = some p ∧ b < p.2) →
      l.foldl (bestStep f) acc = none ∨
        ∃ p : α × ℝ, l.foldl (bestStep f) acc = some p ∧ b < p.2 := by
  induction l with
  | nil => intro acc hacc; exact hacc
  | cons x xs ih =>
    intro acc hacc
    have hx : b < f x := h x (List.mem_cons_self x xs)
    have hxs : ∀ y ∈ xs, b < f y := fun y hy => h y (List.mem_cons_of_mem x hy)
    rw [List.foldl_cons]
    refine ih hxs (bestStep f acc x) ?_
    rcases hacc with hnone | ⟨⟨c0, e0⟩, hsome, hgt⟩
    · subst hnone
      exact Or.inr ⟨(x, f x), rfl, hx⟩
    · subst hsome
      by_cases hlt : f x < e0
      · exact Or.inr ⟨(x, f x), by simp [bestStep, hlt], hx⟩
      · exact Or.inr ⟨(c0, e0), by simp [bestStep, hlt], hgt⟩

/-- If a candidate `c` beats everything enumerated before it strictly and
everything after it weakly, the scan's final best-match record is exactly
`(c, f c)`: the first minimiser wins, because the update is strict. -/
theorem foldBest_split {α : Type} (f : α → ℝ) (l1 l2 : List α) (c : α)
    (h1 : ∀ x ∈ l1, f c < f x) (h2 : ∀ x ∈ l2, f c ≤ f x) :
    (l1 ++ c :: l2).foldl (bestStep f) none = some (c, f c) := by
  rw [List.foldl_append, List.foldl_cons]
  have hacc := foldBest_gt f (f c) l1 h1 none (Or.inl rfl)
  have hstep : bestStep f (l1.foldl (bestStep f) none) c = some (c, f c) := by
    rcases hacc with hnone | ⟨⟨c0, e0⟩, hsome, hgt⟩
    · rw [hnone]; rfl
    · rw [hsome]; simp [bestStep, hgt]
  rw [hstep]
  exact foldBest_stable f c (f c) l2 h2

/-- The error stored in the final best-match record is a lower bound both
for every scanned candidate's error and for the error it started from. -/
theorem foldBest_min {α : Type} (f : α → ℝ) (l : List α) :
    ∀ (acc : Option (α × ℝ)) (c : α) (e : ℝ), l.foldl (bestStep f) acc = some (c, e) →
      (∀ x ∈ l, e ≤ f x) ∧ (∀ (c0 : α) (e0 : ℝ), acc = some (c0, e0) → e ≤ e0) := by
  induction l with
  | nil =>
    intro acc c e hfold
    refine ⟨by simp, fun c0 e0 hacc => ?_⟩
    rw [List.foldl_nil] at hfold
    rw [hacc] at hfold
    cases hfold
    exact le_refl _
  | cons x xs ih =>
    intro acc c e hfold
    rw [List.foldl_cons] at hfold
    obtain ⟨hxs, hstart⟩ := ih (bestStep f acc x) c e hfold
    have hex : e ≤ f x := by
      rcases acc with _ | ⟨⟨c0, e0⟩⟩
      · exact hstart x (f x) rfl
      · by_cases hlt : f x < e0
        · exact hstart x (f x) (by simp [bestStep, hlt])
        · exact le_trans (hstart c0 e0 (by simp [bestStep, hlt])) (not_lt.mp hlt)
    refine ⟨fun y hy => ?_, fun c0 e0 hacc => ?_⟩
    · rcases List.mem_cons.mp hy with hyx | hyxs
      · rw [hyx]; exact hex
      · exact hxs y hyxs
    · subst hacc
      by_cases hlt : f x < e0
      · exact le_trans (hstart x (f x) (by simp [bestStep, hlt])) (le_of_lt hlt)
      · exact hstart c0 e0 (by simp [bestStep, hlt])

/-! ### Projections of the combined scan onto its two components -/

/-- The best-match component of the loop state evolves by `bestStep` alone. -/
theorem scan_foldl_best (tbl : Table) (l : List Candidate) (s : ScanState) :
    (l.foldl (stepScan tbl) s).best = l.foldl (bestStep (errOf tbl)) s.best := by
  induction l generalizing s with
  | nil => rfl
  | cons x xs ih => rw [List.foldl_cons, List.foldl_cons, ih]; rfl

/-- A candidate is in the reports component of the loop state exactly when
it was already there or it is scanned and its error is below tolerance. -/
theorem scan_foldl_reports (tbl : Table) (l : List Candidate) (s : ScanState)
    (c : Candidate) :
    c ∈ (l.foldl (stepScan tbl) s).reports ↔
      c ∈ s.reports ∨ (c ∈ l ∧ errOf tbl c < tolerance) := by
  induction l generalizing s with
  | nil => simp
  | cons x xs ih =>
    rw [List.foldl_cons, ih]
    by_cases hx : errOf tbl x < tolerance
    · simp only [stepScan, if_pos hx, List.mem_append, List.mem_singleton,
        List.mem_cons]
      constructor
      · rintro ((hs | hcx | hnil) | ⟨hxs, hc⟩)
        · exact Or.inl hs
        · exact Or.inr ⟨Or.inl hcx, hcx ▸ hx⟩
        · exact absurd hnil (List.not_mem_nil c)
        · exact Or.inr ⟨Or.inr hxs, hc⟩
      · rintro (hs | ⟨hcx | hxs, hc⟩)
        · exact Or.inl (Or.inl hs)
        · exact Or.inl (Or.inr (Or.inl hcx))
        · exact Or.inr ⟨hxs, hc⟩
    · simp only [stepScan, if_neg hx, List.mem_cons]
      constructor
      · rintro (hs | ⟨hxs, hc⟩)
        · exact Or.inl hs
        · exact Or.inr ⟨Or.inr hxs, hc⟩
      · rintro (hs | ⟨hcx | hxs, hc⟩)
        · exact Or.inl hs
        · exact absurd (hcx ▸ hc) hx
        · exact Or.inr ⟨hxs, hc⟩

/-- The final best-match record of the scan, as a pure `bestStep` fold over
the candidate enumeration. -/
theorem scan_best_eq (tbl : Table) :
    (scan tbl).best = (candidates tbl).foldl (bestStep (errOf tbl)) none :=
  scan_foldl_best tbl (candidates tbl) ⟨none, []⟩

/-- Membership in the scan's report list: exactly the enumerated
candidates whose error is below the tolerance. -/
theorem mem_scan_reports (tbl : Table) (c : Candidate) :
    c ∈ (scan tbl).reports ↔ c ∈ candidates tbl ∧ errOf tbl c < tolerance := by
  rw [scan, scan_foldl_reports]
  simp

/-! ### Characterising the enumeration -/

/-- Membership in `combinations_with_replacement(l, 2)`: exactly the pairs
drawn from positions `i ≤ j` of the list. -/
theorem mem_cwr2 {α : Type} {l : List α} {p : α × α} :
    p ∈ cwr2 l ↔ ∃ (i j : ℕ) (hi : i < l.length) (hj : j < l.length),
      i ≤ j ∧ l.get ⟨i, hi⟩ = p.1 ∧ l.get ⟨j, hj⟩ = p.2 := by
  induction l with
  | nil => simp [cwr2]
  | cons x xs ih =>
    constructor
    · intro hp
      rcases List.mem_append.mp hp with hmap | hrec
      · obtain ⟨y, hy, hxy⟩ := List.mem_map.mp hmap
        obtain ⟨⟨k, hk⟩, hget⟩ := List.mem_iff_get.mp hy
        refine ⟨0, k, by simp, hk, Nat.zero_le k, ?_, ?_⟩
        · rw [← hxy]; simp
        · rw [← hxy, hget]
      · obtain ⟨i, j, hi, hj, hij, h1, h2⟩ := ih.mp hrec
        exact ⟨i + 1, j + 1, Nat.succ_lt_succ hi, Nat.succ_lt_succ hj,
          Nat.succ_le_succ hij, h1, h2⟩
    · rintro ⟨i, j, hi, hj, hij, h1, h2⟩
      rcases i with _ | i
      · refine List.mem_append.mpr (Or.inl (List.mem_map.mpr ⟨p.2, ?_, ?_⟩))
        · rw [← h2]; exact List.get_mem _ _ _
        · have hx : x = p.1 := h1
          rw [hx]
      · rcases j with _ | j
        · exact absurd hij (Nat.not_succ_le_zero i)
        · exact List.mem_append.mpr (Or.inr (ih.mpr
            ⟨i, j, Nat.lt_of_succ_lt_succ hi, Nat.lt_of_succ_lt_succ hj,
              Nat.le_of_succ_le_succ hij, h1, h2⟩))

/-- Both components of an enumerated pair are entries of the table. -/
theorem mem_of_mem_cwr2 {α : Type} {l : List α} {p : α × α} (hp : p ∈ cwr2 l) :
    p.1 ∈ l ∧ p.2 ∈ l := by
  obtain ⟨i, j, hi, hj, _, h1, h2⟩ := mem_cwr2.mp hp
  exact ⟨h1 ▸ List.get_mem _ _ _, h2 ▸ List.get_mem _ _ _⟩

/-- The unary loop enumerates nothing for the non-`sqrt` operators. -/
theorem unaryCands_eq_nil {op : Op} (hop : op ≠ Op.sqrt) (tbl : Table) :
    unaryCands op tbl = [] := by
  rw [unaryCands, List.filterMap_eq_nil_iff]
  intro p _
  by_cases ht : p.1 = "TARGET" <;> simp [ht, hop]

/-- The binary loop enumerates nothing for the `sqrt` operator. -/
theorem binaryCands_sqrt_eq_nil (tbl : Table) :
    binaryCands Op.sqrt tbl = [] := by
  rw [binaryCands, if_neg]
  decide

/-- The full enumeration, made concrete: all `Add` pairs, then all `Mul`
pairs, then all `Pow` pairs, then the square roots. -/
theorem candidates_eq (tbl : Table) :
    candidates tbl = binaryCands Op.add tbl ++ binaryCands Op.mul tbl ++
      binaryCands Op.pow tbl ++ unaryCands Op.sqrt tbl := by
  simp [candidates, operations, unaryCands_eq_nil, binaryCands_sqrt_eq_nil]

/-- Membership in the `sqrt` part of the enumeration. -/
theorem mem_unaryCands_sqrt {tbl : Table} {c : Candidate} :
    c ∈ unaryCands Op.sqrt tbl ↔
      ∃ p ∈ tbl, p.1 ≠ "TARGET" ∧ c = Candidate.unary Op.sqrt p.1 := by
  rw [unaryCands, List.mem_filterMap]
  constructor
  · rintro ⟨p, hp, hf⟩
    by_cases ht : p.1 = "TARGET"
    · rw [if_pos ht] at hf; cases hf
    · rw [if_neg ht, if_pos rfl] at hf
      exact ⟨p, hp, ht, (Option.some_inj.mp hf).symm⟩
  · rintro ⟨p, hp, ht, hc⟩
    exact ⟨p, hp, by rw [if_neg ht, if_pos rfl, hc]⟩

/-- Membership in the binary part of the enumeration for one binary
operator. -/
theorem mem_binaryCands {op : Op} (hop : op ∈ [Op.add, Op.mul, Op.pow])
    {tbl : Table} {c : Candidate} :
    c ∈ binaryCands op tbl ↔
      ∃ q ∈ cwr2 tbl, q.1.1 ≠ "TARGET" ∧ q.2.1 ≠ "TARGET" ∧
        c = Candidate.binary op q.1.1 q.2.1 := by
  rw [binaryCands, if_pos hop, List.mem_filterMap]
  constructor
  · rintro ⟨q, hq, hf⟩
    by_cases ht : "TARGET" ∈ [q.1.1, q.2.1]
    · rw [if_pos ht] at hf; cases hf
    · rw [if_neg ht] at hf
      have ht1 : q.1.1 ≠ "TARGET" := fun h => ht (by rw [h]; exact List.mem_cons_self _ _)
      have ht2 : q.2.1 ≠ "TARGET" := fun h => ht (by rw [h]; simp)
      exact ⟨q, hq, ht1, ht2, (Option.some_inj.mp hf).symm⟩
  · rintro ⟨q, hq, ht1, ht2, hc⟩
    refine ⟨q, hq, ?_⟩
    rw [if_neg, hc]
    intro hmem
    rcases List.mem_cons.mp hmem with h | h
    · exact ht1 h.symm
    · rcases List.mem_cons.mp h with h' | h'
      · exact ht2 h'.symm
      · exact absurd h' (List.not_mem_nil _)

/-- Every enumerated candidate is either a square root of one non-target
entry or a binary `Add`/`Mul`/`Pow` over a with-replacement pair of
non-target entries. -/
theorem mem_candidates_cases {tbl : Table} {c : Candidate}
    (hc : c ∈ candidates tbl) :
    (∃ p ∈ tbl, p.1 ≠ "TARGET" ∧ c = Candidate.unary Op.sqrt p.1) ∨
      (∃ op, op ∈ [Op.add, Op.mul, Op.pow] ∧ ∃ q ∈ cwr2 tbl,
        q.1.1 ≠ "TARGET" ∧ q.2.1 ≠ "TARGET" ∧
          c = Candidate.binary op q.1.1 q.2.1) := by
  rw [candidates_eq] at hc
  rcases List.mem_append.mp hc with hc' | hsq
  · rcases List.mem_append.mp hc' with hc'' | hpow
    · rcases List.mem_append.mp hc'' with hadd | hmul
      · exact Or.inr ⟨Op.add, by decide, (mem_binaryCands (by decide)).mp hadd⟩
      · exact Or.inr ⟨Op.mul, by decide, (mem_binaryCands (by decide)).mp hmul⟩
    · exact Or.inr ⟨Op.pow, by decide, (mem_binaryCands (by decide)).mp hpow⟩
  · exact Or.inl (mem_unaryCands_sqrt.mp hsq)

/-- First-minimiser characterisation of the scan's best match, in terms of
a split of the enumeration order. -/
theorem scan_best_of_split (tbl : Table) (l1 l2 : List Candidate) (c : Candidate)
    (hsplit : candidates tbl = l1 ++ c :: l2)
    (h1 : ∀ x ∈ l1, errOf tbl c < errOf tbl x)
    (h2 : ∀ x ∈ l2, errOf tbl c ≤ errOf tbl x) :
    (scan tbl).best = some (c, errOf tbl c) := by
  rw [scan_best_eq, hsplit]
  exact foldBest_split (errOf tbl) l1 l2 c h1 h2

/-! ### Numeric bounds for the concrete tables -/

/-- Every error is an absolute value, hence non-negative. -/
theorem errOf_nonneg (tbl : Table) (c : Candidate) : 0 ≤ errOf tbl c :=
  abs_nonneg _

/-- Monotonicity of real powers in the exponent, with a natural upper
exponent. -/
theorem rpow_le_of_exp_le_nat {b : ℝ} (hb : 1 ≤ b) {y : ℝ} (n : ℕ) (hy : y ≤ (n : ℝ)) :
    b ^ y ≤ b ^ n := by
  calc b ^ y ≤ b ^ ((n : ℕ) : ℝ) := Real.rpow_le_rpow_of_exponent_le hb hy
    _ = b ^ n := Real.rpow_natCast b n

/-- Monotonicity of real powers in the exponent, with a natural lower
exponent. -/
theorem nat_pow_le_rpow_of_le_exp {b : ℝ} (hb : 1 ≤ b) {y : ℝ} (n : ℕ) (hy : (n : ℝ) ≤ y) :
    b ^ n ≤ b ^ y := by
  calc b ^ n = b ^ ((n : ℕ) : ℝ) := (Real.rpow_natCast b n).symm
    _ ≤ b ^ y := Real.rpow_le_rpow_of_exponent_le hb hy

/-- `2.718 ** 2.718` exceeds the target `9.869` by more than the
tolerance: it is at least `2.718 ** 2.5 = sqrt(2.718 ** 5) ≥ 9.87`. -/
theorem pow_c2_c2_lower : (9.87 : ℝ) ≤ (2.718 : ℝ) ^ (2.718 : ℝ) := by
  have h1 : (2.718 : ℝ) ^ (2.5 : ℝ) ≤ (2.718 : ℝ) ^ (2.718 : ℝ) :=
    Real.rpow_le_rpow_of_exponent_le (by norm_num) (by norm_num)
  have h2 : (2.718 : ℝ) ^ (2.5 : ℝ) = Real.sqrt ((2.718 : ℝ) ^ (5 : ℕ)) := by
    rw [show (2.5 : ℝ) = ((5 : ℕ) : ℝ) * (1 / 2 : ℝ) by norm_num,
      Real.rpow_mul (by norm_num), Real.rpow_natCast, ← Real.sqrt_eq_rpow]
  have h3 : (9.87 : ℝ) ≤ Real.sqrt ((2.718 : ℝ) ^ (5 : ℕ)) := by
    rw [Real.le_sqrt' (by norm_num)]
    norm_num
  calc (9.87 : ℝ) ≤ Real.sqrt ((2.718 : ℝ) ^ (5 : ℕ)) := h3
    _ = (2.718 : ℝ) ^ (2.5 : ℝ) := h2.symm
    _ ≤ _ := h1

/-! ### The example table `constants_db` -/

/-- The enumeration over the example table, fully evaluated: the six
`Add` pairs, six `Mul` pairs, six `Pow` pairs, three square roots. -/
theorem candidates_constants_db :
    candidates constants_db =
      [Candidate.binary Op.add "C1" "C1", Candidate.binary Op.add "C1" "C2",
       Candidate.binary Op.add "C1" "C3", Candidate.binary Op.add "C2" "C2",
       Candidate.binary Op.add "C2" "C3", Candidate.binary Op.add "C3" "C3",
       Candidate.binary Op.mul "C1" "C1", Candidate.binary Op.mul "C1" "C2",
       Candidate.binary Op.mul "C1" "C3", Candidate.binary Op.mul "C2" "C2",
       Candidate.binary Op.mul "C2" "C3", Candidate.binary Op.mul "C3" "C3",
       Candidate.binary Op.pow "C1" "C1", Candidate.binary Op.pow "C1" "C2",
       Candidate.binary Op.pow "C1" "C3", Candidate.binary Op.pow "C2" "C2",
       Candidate.binary Op.pow "C2" "C3", Candidate.binary Op.pow "C3" "C3",
       Candidate.unary Op.sqrt "C1", Candidate.unary Op.sqrt "C2",
       Candidate.unary Op.sqrt "C3"] := by
  decide

/-- The error of the candidate `C3 * C3` on the example table. -/
theorem err_mul_c3_c3 :
    errOf constants_db (Candidate.binary Op.mul "C3" "C3") = 0.00002225 := by
  show |(3.1415 : ℝ) * 3.1415 - 9.869| = 0.00002225
  rw [abs_of_nonneg (by norm_num)]
  norm_num

/-- On the example table, `C3 * C3` is the strict minimiser over all
candidates enumerated before it and a weak minimiser over all candidates
enumerated after it, so the scan ends with it as the best match. -/
theorem scan_constants_best :
    (scan constants_db).best =
      some (Candidate.binary Op.mul "C3" "C3", (0.00002225 : ℝ)) := by
  have h := scan_best_of_split constants_db
    [Candidate.binary Op.add "C1" "C1", Candidate.binary Op.add "C1" "C2",
     Candidate.binary Op.add "C1" "C3", Candidate.binary Op.add "C2" "C2",
     Candidate.binary Op.add "C2" "C3", Candidate.binary Op.add "C3" "C3",
     Candidate.binary Op.mul "C1" "C1", Candidate.binary Op.mul "C1" "C2",
     Candidate.binary Op.mul "C1" "C3", Candidate.binary Op.mul "C2" "C2",
     Candidate.binary Op.mul "C2" "C3"]
    [Candidate.binary Op.pow "C1" "C1", Candidate.binary Op.pow "C1" "C2",
     Candidate.binary Op.pow "C1" "C3", Candidate.binary Op.pow "C2" "C2",
     Candidate.binary Op.pow "C2" "C3", Candidate.binary Op.pow "C3" "C3",
     Candidate.unary Op.sqrt "C1", Candidate.unary Op.sqrt "C2",
     Candidate.unary Op.sqrt "C3"]
    (Candidate.binary Op.mul "C3" "C3") (by decide) ?_ ?_
  · rw [h, err_mul_c3_c3]
  · intro x hx
    rw [err_mul_c3_c3]
    fin_cases hx
    · refine lt_of_lt_of_le ?_ (neg_le_abs _)
      show (0.00002225 : ℝ) < -((1.618 : ℝ) + 1.618 - 9.869); norm_num
    · refine lt_of_lt_of_le ?_ (neg_le_abs _)
      show (0.00002225 : ℝ) < -((1.618 : ℝ) + 2.718 - 9.869); norm_num
    · refine lt_of_lt_of_le ?_ (neg_le_abs _)
      show (0.00002225 : ℝ) < -((1.618 : ℝ) + 3.1415 - 9.869); norm_num
    · refine lt_of_lt_of_le ?_ (neg_le_abs _)
      show (0.00002225 : ℝ) < -((2.718 : ℝ) + 2.718 - 9.869); norm_num
    · refine lt_of_lt_of_le ?_ (neg_le_abs _)
      show (0.00002225 : ℝ) < -((2.718 : ℝ) + 3.1415 - 9.869); norm_num
    · refine lt_of_lt_of_le ?_ (neg_le_abs _)
      show (0.00002225 : ℝ) < -((3.1415 : ℝ) + 3.1415 - 9.869); norm_num
    · refine lt_of_lt_of_le ?_ (neg_le_abs _)
      show (0.00002225 : ℝ) < -((1.618 : ℝ) * 1.618 - 9.869); norm_num
    · refine lt_of_lt_of_le ?_ (neg_le_abs _)
      show (0.00002225 : ℝ) < -((1.618 : ℝ) * 2.718 - 9.869); norm_num
    · refine lt_of_lt_of_le ?_ (neg_le_abs _)
      show (0.00002225 : ℝ) < -((1.618 : ℝ) * 3.1415 - 9.869); norm_num
    · refine lt_of_lt_of_le ?_ (neg_le_abs _)
      show (0.00002225 : ℝ) < -((2.718 : ℝ) * 2.718 - 9.869); norm_num
    · refine lt_of_lt_of_le ?_ (neg_le_abs _)
      show (0.00002225 : ℝ) < -((2.718 : ℝ) * 3.1415 - 9.869); norm_num
  · intro x hx
    rw [err_mul_c3_c3]
    fin_cases hx
    · refine le_trans ?_ (neg_le_abs _)
      show (0.00002225 : ℝ) ≤ -((1.618 : ℝ) ^ (1.618 : ℝ) - 9.869)
      have hub : (1.618 : ℝ) ^ (1.618 : ℝ) ≤ (1.618 : ℝ) ^ (2 : ℕ) :=
        rpow_le_of_exp_le_nat (by norm_num) 2 (by norm_num)
      have h2 : ((1.618 : ℝ) ^ (2 : ℕ)) = 2.617924 := by norm_num
      linarith
    · refine le_trans ?_ (neg_le_abs _)
      show (0.00002225 : ℝ) ≤ -((1.618 : ℝ) ^ (2.718 : ℝ) - 9.869)
      have hub : (1.618 : ℝ) ^ (2.718 : ℝ) ≤ (1.618 : ℝ) ^ (3 : ℕ) :=
        rpow_le_of_exp_le_nat (by norm_num) 3 (by norm_num)
      have h2 : ((1.618 : ℝ) ^ (3 : ℕ)) = 4.235801032 := by norm_num
      linarith
    · refine le_trans ?_ (neg_le_abs _)
      show (0.00002225 : ℝ) ≤ -((1.618 : ℝ) ^ (3.1415 : ℝ) - 9.869)
      have hub : (1.618 : ℝ) ^ (3.1415 : ℝ) ≤ (1.618 : ℝ) ^ (4 : ℕ) :=
        rpow_le_of_exp_le_nat (by norm_num) 4 (by norm_num)
      have h2 : ((1.618 : ℝ) ^ (4 : ℕ)) = 6.853526069776 := by norm_num
      linarith
    · refine le_trans ?_ (le_abs_self _)
      show (0.00002225 : ℝ) ≤ (2.718 : ℝ) ^ (2.718 : ℝ) - 9.869
      have := pow_c2_c2_lower
      linarith
    · refine le_trans ?_ (le_abs_self _)
      show (0.00002225 : ℝ) ≤ (2.718 : ℝ) ^ (3.1415 : ℝ) - 9.869
      have hlb : (2.718 : ℝ) ^ (3 : ℕ) ≤ (2.718 : ℝ) ^ (3.1415 : ℝ) :=
        nat_pow_le_rpow_of_le_exp (by norm_num) 3 (by norm_num)
      have h2 : ((2.718 : ℝ) ^ (3 : ℕ)) = 20.079290232 := by norm_num
      linarith
    · refine le_trans ?_ (le_abs_self _)
      show (0.00002225 : ℝ) ≤ (3.1415 : ℝ) ^ (3.1415 : ℝ) - 9.869
      have hlb : (3.1415 : ℝ) ^ (3 : ℕ) ≤ (3.1415 : ℝ) ^ (3.1415 : ℝ) :=
        nat_pow_le_rpow_of_le_exp (by norm_num) 3 (by norm_num)
      have h2 : ((3.1415 : ℝ) ^ (3 : ℕ)) = 31.003533398375 := by norm_num
      linarith
    · refine le_trans ?_ (neg_le_abs _)
      show (0.00002225 : ℝ) ≤ -(Real.sqrt 1.618 - 9.869)
      have hub : Real.sqrt (1.618 : ℝ) < 2 := by
        rw [Real.sqrt_lt' (by norm_num)]; norm_num
      linarith
    · refine le_trans ?_ (neg_le_abs _)
      show (0.00002225 : ℝ) ≤ -(Real.sqrt 2.718 - 9.869)
      have hub : Real.sqrt (2.718 : ℝ) < 2 := by
        rw [Real.sqrt_lt' (by norm_num)]; norm_num
      linarith
    · refine le_trans ?_ (neg_le_abs _)
      show (0.00002225 : ℝ) ≤ -(Real.sqrt 3.1415 - 9.869)
      have hub : Real.sqrt (3.1415 : ℝ) < 2 := by
        rw [Real.sqrt_lt' (by norm_num)]; norm_num
      linarith

/-! ### The spec's `{A: 2.0, TARGET: 4.0}` scenario -/

/-- The enumeration over the scenario table: the three binary self-pairs
and the square root, in operator order. -/
theorem candidates_scenario_db :
    candidates scenario_db =
      [Candidate.binary Op.add "A" "A", Candidate.binary Op.mul "A" "A",
       Candidate.binary Op.pow "A" "A", Candidate.unary Op.sqrt "A"] := by
  decide

/-- The error of the candidate `A + A` on the scenario table is exactly 0. -/
theorem err_scenario_add :
    errOf scenario_db (Candidate.binary Op.add "A" "A") = 0 := by
  show |(2.0 : ℝ) + 2.0 - 4.0| = 0
  norm_num

/-- The error of the candidate `A * A` on the scenario table is exactly 0. -/
theorem err_scenario_mul :
    errOf scenario_db (Candidate.binary Op.mul "A" "A") = 0 := by
  show |(2.0 : ℝ) * 2.0 - 4.0| = 0
  norm_num

/-- On the scenario table the very first candidate, `A + A`, already has
error 0, so the strict-`<` update never replaces it. -/
theorem scan_scenario_best :
    (scan scenario_db).best = some (Candidate.binary Op.add "A" "A", (0 : ℝ)) := by
  have h := scan_best_of_split scenario_db []
    [Candidate.binary Op.mul "A" "A", Candidate.binary Op.pow "A" "A",
     Candidate.unary Op.sqrt "A"]
    (Candidate.binary Op.add "A" "A") (by decide) (by simp) ?_
  · rw [h, err_scenario_add]
  · intro x hx
    rw [err_scenario_add]
    exact errOf_nonneg scenario_db x

/-! ### The claims -/

/-- C1: for the constant table `{C1: 1.618, C2: 2.718, C3: 3.1415,
TARGET: 9.869}` with operators `[Add, Mul, Pow, sqrt]`, the matcher's
final best match is the candidate `C3 * C3`, its error
`|3.1415*3.1415 - 9.869|` is below the tolerance `1e-3`, and this
candidate is flagged as a discovery during the scan. -/
theorem example_best_is_c3_times_c3 :
    (scan constants_db).best =
      some (Candidate.binary Op.mul "C3" "C3", |(3.1415 : ℝ) * 3.1415 - 9.869|) ∧
    |(3.1415 : ℝ) * 3.1415 - 9.869| < tolerance ∧
    Candidate.binary Op.mul "C3" "C3" ∈ (scan constants_db).reports := by
  have habs : |(3.1415 : ℝ) * 3.1415 - 9.869| = 0.00002225 := by
    rw [abs_of_nonneg (by norm_num)]; norm_num
  refine ⟨by rw [habs]; exact scan_constants_best, by rw [habs]; norm_num [tolerance], ?_⟩
  exact (mem_scan_reports constants_db _).mpr
    ⟨by decide, by rw [err_mul_c3_c3]; norm_num [tolerance]⟩

/-- C2 counterexample: on the table `{A: 2.0, TARGET: 4.0}` the final best
match is the `Add` candidate `A + A` (enumerated first, error 0), not the
`Mul` candidate `A * A` claimed by the spec: the strict `<` comparison
never replaces an earlier candidate by a later tie. -/
theorem scenario_best_is_not_mul :
    (scan scenario_db).best = some (Candidate.binary Op.add "A" "A", (0 : ℝ)) ∧
    (scan scenario_db).best ≠ some (Candidate.binary Op.mul "A" "A", (0 : ℝ)) := by
  refine ⟨scan_scenario_best, ?_⟩
  rw [scan_scenario_best]
  simp

/-- C2 (amended): for the constant table `{A: 2.0, TARGET: 4.0}` the
matcher's final best match is the candidate `A + A` with error `0.0`;
both `A + A` and the exact-but-later candidate `A * A` are flagged as
discoveries during the scan. -/
theorem scenario_best_is_add_self :
    (scan scenario_db).best = some (Candidate.binary Op.add "A" "A", (0 : ℝ)) ∧
    Candidate.binary Op.add "A" "A" ∈ (scan scenario_db).reports ∧
    Candidate.binary Op.mul "A" "A" ∈ (scan scenario_db).reports := by
  refine ⟨scan_scenario_best, ?_, ?_⟩
  · exact (mem_scan_reports _ _).mpr
      ⟨by decide, by rw [err_scenario_add]; norm_num [tolerance]⟩
  · exact (mem_scan_reports _ _).mpr
      ⟨by decide, by rw [err_scenario_mul]; norm_num [tolerance]⟩

/-- C3 counterexample: the table `{A: 2.0, TARGET: 4.0}` has exactly one
non-target entry, yet the enumeration contains the binary candidate
`A + A`: `combinations_with_replacement` pairs the sole constant with
itself, so binary candidates do exist. -/
theorem single_entry_has_binary_candidate :
    (scenario_db.filter (fun p => p.1 ≠ "TARGET")).length = 1 ∧
    Candidate.binary Op.add "A" "A" ∈ candidates scenario_db :=
  ⟨rfl, by decide⟩

/-- C3 (amended): for every constant table with exactly one non-target
entry, the enumeration produces only the unary square-root candidate of
that entry and, per binary operator, the self-paired binary candidate of
that entry; no candidate has two distinct operands. -/
theorem single_entry_candidates_shape (tbl : Table) (n : String) (v : ℝ)
    (hflt : tbl.filter (fun p => p.1 ≠ "TARGET") = [(n, v)])
    (c : Candidate) (hc : c ∈ candidates tbl) :
    c = Candidate.unary Op.sqrt n ∨ ∃ op, c = Candidate.binary op n n := by
  have hname : ∀ p ∈ tbl, p.1 ≠ "TARGET" → p.1 = n := by
    intro p hp hpt
    have hmem : p ∈ tbl.filter (fun p => p.1 ≠ "TARGET") :=
      List.mem_filter.mpr ⟨hp, by simp [hpt]⟩
    rw [hflt] at hmem
    rw [List.mem_singleton.mp hmem]
  rcases mem_candidates_cases hc with ⟨p, hp, hpt, hceq⟩ | ⟨op, _, q, hq, ht1, ht2, hceq⟩
  · left; rw [hceq, hname p hp hpt]
  · right
    obtain ⟨h1, h2⟩ := mem_of_mem_cwr2 hq
    exact ⟨op, by rw [hceq, hname q.1 h1 ht1, hname q.2 h2 ht2]⟩

/-- Witness for C3 (amended): on the scenario table, the candidate
`A ** A` is indeed a self-pair of the sole non-target entry. -/
theorem single_entry_candidates_shape_witness :
    scenario_db.filter (fun p => p.1 ≠ "TARGET") = [("A", 2.0)] ∧
    Candidate.binary Op.pow "A" "A" ∈ candidates scenario_db ∧
    (Candidate.binary Op.pow "A" "A" = Candidate.unary Op.sqrt "A" ∨
      ∃ op, Candidate.binary Op.pow "A" "A" = Candidate.binary op "A" "A") :=
  ⟨rfl, by decide,
    single_entry_candidates_shape scenario_db "A" 2.0 rfl _ (by decide)⟩

/-- C4: on a table whose non-target entry set is empty the scan completes
with no candidate enumerated and an empty best-match record, but the
final report step does not surface an explicit "no match" result: the
script calls `.evalf` on `None` and raises `AttributeError` (modelled as
`none`), contradicting the claimed graceful completion. -/
theorem empty_operand_set_no_report :
    candidates target_only_db = [] ∧ (scan target_only_db).best = none ∧
      finalReport target_only_db = none := by
  have hc : candidates target_only_db = [] := by decide
  have hb : (scan target_only_db).best = none := by rw [scan, hc]; rfl
  refine ⟨hc, hb, ?_⟩
  show (match (scan target_only_db).best with
    | none => none
    | some (c, e) => some (c, evalCand target_only_db c, e)) = none
  rw [hb]

/-- C5: the error of the final best-match record is less than or equal to
the error of every candidate enumerated during the full scan. -/
theorem best_error_global_min (tbl : Table) (c : Candidate) (e : ℝ) (x : Candidate)
    (hb : (scan tbl).best = some (c, e)) (hx : x ∈ candidates tbl) :
    e ≤ errOf tbl x := by
  rw [scan_best_eq] at hb
  exact (foldBest_min (errOf tbl) (candidates tbl) none c e hb).1 x hx

/-- Witness for C5: on the scenario table, the best error 0 is below the
error of the square-root candidate. -/
theorem best_error_global_min_witness :
    (scan scenario_db).best = some (Candidate.binary Op.add "A" "A", (0 : ℝ)) ∧
    Candidate.unary Op.sqrt "A" ∈ candidates scenario_db ∧
    (0 : ℝ) ≤ errOf scenario_db (Candidate.unary Op.sqrt "A") :=
  ⟨scan_scenario_best, by decide,
    best_error_global_min scenario_db _ 0 _ scan_scenario_best (by decide)⟩

/-- C6: whenever two or more candidates tie for the minimum error, the
final best match is the tied candidate encountered first in enumeration
order, because the best-match record is replaced only on strictly
smaller error. -/
theorem tie_first_enumerated_wins (tbl : Table) (l1 l2 : List Candidate)
    (c c' : Candidate) (hsplit : candidates tbl = l1 ++ c :: l2)
    (hmin : ∀ x ∈ candidates tbl, errOf tbl c ≤ errOf tbl x)
    (hfirst : ∀ x ∈ l1, errOf tbl x ≠ errOf tbl c)
    (_htie : c' ∈ l2) (_htie2 : errOf tbl c' = errOf tbl c) :
    (scan tbl).best = some (c, errOf tbl c) := by
  refine scan_best_of_split tbl l1 l2 c hsplit (fun x hx => ?_) (fun x hx => ?_)
  · exact lt_of_le_of_ne
      (hmin x (by rw [hsplit]; exact List.mem_append.mpr (Or.inl hx)))
      (fun h => hfirst x hx h.symm)
  · exact hmin x (by rw [hsplit]
                     exact List.mem_append.mpr (Or.inr (List.mem_cons_of_mem c hx)))

/-- Witness for C6: on the scenario table, `A + A` and `A * A` tie at
error 0 and the earlier `A + A` is the final best match. -/
theorem tie_first_enumerated_wins_witness :
    errOf scenario_db (Candidate.binary Op.mul "A" "A") =
      errOf scenario_db (Candidate.binary Op.add "A" "A") ∧
    (scan scenario_db).best =
      some (Candidate.binary Op.add "A" "A",
        errOf scenario_db (Candidate.binary Op.add "A" "A")) := by
  refine ⟨err_scenario_mul.trans err_scenario_add.symm, ?_⟩
  refine tie_first_enumerated_wins scenario_db []
    [Candidate.binary Op.mul "A" "A", Candidate.binary Op.pow "A" "A",
     Candidate.unary Op.sqrt "A"]
    (Candidate.binary Op.add "A" "A") (Candidate.binary Op.mul "A" "A")
    (by decide) ?_ (by simp) (by decide)
    (err_scenario_mul.trans err_scenario_add.symm)
  intro x hx
  rw [err_scenario_add]
  exact errOf_nonneg scenario_db x

/-- C7: a candidate is reported as a potential discovery during the scan
exactly when it is enumerated and its absolute error against the target
is below the tolerance `1e-3`, independently of the final best match. -/
theorem reported_iff_below_tolerance (tbl : Table) (c : Candidate) :
    c ∈ (scan tbl).reports ↔ c ∈ candidates tbl ∧ errOf tbl c < tolerance :=
  mem_scan_reports tbl c

/-- Witness for C7: the discovery `C3 * C3` is reported on the example
table because its error is below the tolerance. -/
theorem reported_iff_below_tolerance_witness :
    Candidate.binary Op.mul "C3" "C3" ∈ (scan constants_db).reports :=
  (reported_iff_below_tolerance constants_db (Candidate.binary Op.mul "C3" "C3")).mpr
    ⟨by decide, by rw [err_mul_c3_c3]; norm_num [tolerance]⟩

/-- C8: no candidate enumerated by the matcher uses the target entry as
an operand. -/
theorem target_not_an_operand (tbl : Table) (c : Candidate)
    (hc : c ∈ candidates tbl) : "TARGET" ∉ c.operandNames := by
  rcases mem_candidates_cases hc with ⟨p, _, hpt, hceq⟩ | ⟨op, _, q, _, ht1, ht2, hceq⟩
  · rw [hceq]
    intro hmem
    rcases List.mem_singleton.mp hmem with h
    exact hpt h.symm
  · rw [hceq]
    intro hmem
    rcases List.mem_cons.mp hmem with h | h
    · exact ht1 h.symm
    · rcases List.mem_singleton.mp h with h'
      exact ht2 h'.symm

/-- Witness for C8: the winning candidate of the example table does not
mention `TARGET`. -/
theorem target_not_an_operand_witness :
    Candidate.binary Op.mul "C3" "C3" ∈ candidates constants_db ∧
    "TARGET" ∉ (Candidate.binary Op.mul "C3" "C3").operandNames :=
  ⟨by decide, target_not_an_operand constants_db _ (by decide)⟩

/-- C9: the matcher is deterministic: two runs on the identical table
yield the identical best-match record and the identical report list. -/
theorem scan_deterministic (t1 t2 : Table) (h : t1 = t2) :
    (scan t1).best = (scan t2).best ∧ (scan t1).reports = (scan t2).reports := by
  rw [h]
  exact ⟨rfl, rfl⟩

/-- Witness for C9: re-running on the example table changes nothing. -/
theorem scan_deterministic_witness :
    constants_db = constants_db ∧
    (scan constants_db).best = (scan constants_db).best ∧
    (scan constants_db).reports = (scan constants_db).reports :=
  ⟨rfl, scan_deterministic constants_db constants_db rfl⟩

/-- In a table with pairwise-distinct names, a name determines its
position. -/
theorem name_position_unique {tbl : Table} (hnd : (tbl.map Prod.fst).Nodup)
    {k m : ℕ} (hk : k < tbl.length) (hm : m < tbl.length)
    (hname : (tbl.get ⟨k, hk⟩).1 = (tbl.get ⟨m, hm⟩).1) : k = m := by
  have hk' : k < (tbl.map Prod.fst).length := by simpa using hk
  have hm' : m < (tbl.map Prod.fst).length := by simpa using hm
  have hget : (tbl.map Prod.fst).get ⟨k, hk'⟩ = (tbl.map Prod.fst).get ⟨m, hm'⟩ := by
    rw [List.get_eq_getElem, List.get_eq_getElem, List.getElem_map, List.getElem_map]
    simpa using hname
  have hfin := hnd.get_inj_iff.mp hget
  simpa using hfin

/-- C10: for distinct non-target constants `a` and `b` where `a` precedes
`b` in table insertion order (and names are unique), the matcher
enumerates the power candidate `a ** b` but never the reversed candidate
`b ** a`. -/
theorem pow_ordered_pairs_only (tbl : Table) (a b : String) (i j : ℕ)
    (hi : i < tbl.length) (hj : j < tbl.length) (hij : i < j)
    (ha : (tbl.get ⟨i, hi⟩).1 = a) (hb : (tbl.get ⟨j, hj⟩).1 = b)
    (haT : a ≠ "TARGET") (hbT : b ≠ "TARGET")
    (hnd : (tbl.map Prod.fst).Nodup) :
    Candidate.binary Op.pow a b ∈ candidates tbl ∧
      Candidate.binary Op.pow b a ∉ candidates tbl := by
  constructor
  · have hq : (tbl.get ⟨i, hi⟩, tbl.get ⟨j, hj⟩) ∈ cwr2 tbl :=
      mem_cwr2.mpr ⟨i, j, hi, hj, le_of_lt hij, rfl, rfl⟩
    have hmem : Candidate.binary Op.pow a b ∈ binaryCands Op.pow tbl :=
      (mem_binaryCands (by decide)).mpr
        ⟨(tbl.get ⟨i, hi⟩, tbl.get ⟨j, hj⟩), hq,
          by rw [ha]; exact haT, by rw [hb]; exact hbT, by rw [ha, hb]⟩
    rw [candidates_eq]
    simp only [List.mem_append]
    exact Or.inl (Or.inr hmem)
  · intro hmem
    rcases mem_candidates_cases hmem with ⟨p, _, _, hceq⟩ | ⟨op, _, q, hq, ht1, ht2, hceq⟩
    · exact Candidate.noConfusion hceq
    · injection hceq with hop hb' ha'
      obtain ⟨k, m, hk, hm, hkm, hq1, hq2⟩ := mem_cwr2.mp hq
      have hkj : k = j := by
        refine name_position_unique hnd hk hj ?_
        rw [hq1, ← hb', hb]
      have hmi : m = i := by
        refine name_position_unique hnd hm hi ?_
        rw [hq2, ← ha', ha]
      rw [hkj, hmi] at hkm
      exact absurd hkm (not_le.mpr hij)

/-- Witness for C10: in the example table, `C2 ** C3` is enumerated but
`C3 ** C2` never is, even though both orders would be well-formed. -/
theorem pow_ordered_pairs_only_witness :
    (constants_db.get ⟨1, by decide⟩).1 = "C2" ∧
    (constants_db.get ⟨2, by decide⟩).1 = "C3" ∧
    (constants_db.map Prod.fst).Nodup ∧
    Candidate.binary Op.pow "C2" "C3" ∈ candidates constants_db ∧
    Candidate.binary Op.pow "C3" "C2" ∉ candidates constants_db := by
  refine ⟨rfl, rfl, by decide, ?_⟩
  exact pow_ordered_pairs_only constants_db "C2" "C3" 1 2 (by decide) (by decide)
    (by decide) rfl rfl (by decide) (by decide) (by decide)

end SymbolicDiscovery
